import Mathlib

/-!
Verification of the negroni middleware-chaining core (`src/negroni.go`).

The heap of chain nodes is modelled as an arena: a list of nodes whose
indices play the role of Go pointers (`Option Nat`, with `none` for a nil
pointer).  `middleware` values, `build`, `appendMiddleware`, `Handlers`,
`voidMiddleware` and `isVoidMiddleware` are translated directly from the
source; loops and the request-time traversal take an explicit fuel, and a
`none` result marks a panic (nil dereference, nil handler invocation) or
fuel exhaustion.  A handler unit is modelled semantically as the spec's
observable unit: it logs an `enter` token, performs response-wrapper
operations, optionally invokes its continuation, performs more operations
and logs an `exit` token.  The per-request response wrapper is modelled
from the spec because `responsewriter.go` is not part of the sources.
-/

set_option maxRecDepth 8000

namespace NegroniModel

/-- Bytes of a response body, abstracted as a list of byte values. -/
abbrev Bytes := List Nat

/-- Modelled from the spec: an operation a handler unit performs on the
per-request response wrapper (`responsewriter.go` is not under `src/`):
an explicit status write or a body write. -/
inductive RWOp where
  | writeHeader (code : Nat)
  | write (b : Bytes)
  deriving DecidableEq, Repr

/-- Modelled from the spec: the per-request response wrapper state:
observed status (`none` = unset), accumulated byte count, and the bytes
and status codes forwarded to the underlying sink. -/
structure RW where
  status : Option Nat
  size : Nat
  sink : Bytes
  sinkStatus : List Nat
  deriving DecidableEq, Repr

/-- A fresh response wrapper, as installed by `Negroni.ServeHTTP`. -/
def RW.init : RW := ⟨none, 0, [], []⟩

/-- Modelled from the spec: `write status code C` records C as the observed
status if this is the first status-setting call, and forwards C unchanged
to the underlying sink. -/
def RW.writeHeader (w : RW) (c : Nat) : RW :=
  { w with status := if w.status = none then some c else w.status,
           sinkStatus := w.sinkStatus ++ [c] }

/-- Modelled from the spec: `write body bytes B`: if no status has been set
yet, implicitly performs the default status write of 200 first; accumulates
`B.length` into the byte counter and forwards B unchanged. -/
def RW.write (w : RW) (b : Bytes) : RW :=
  let w1 := if w.status = none then w.writeHeader 200 else w
  { w1 with size := w1.size + b.length, sink := w1.sink ++ b }

/-- Semantic value of a `negroni.Handler` interface value.  `noop` is the
do-nothing closure allocated by `voidMiddleware`.  `unit id pre rest` is an
observable middleware unit in the sense of the spec's testable properties:
it logs `enter id`, applies the response operations `pre`, and then either
returns without calling its continuation (`rest = none`) or calls the
continuation once, applies `post` and logs `exit id` (`rest = some post`). -/
inductive HandlerV where
  | noop
  | unit (id : Nat) (pre : List RWOp) (rest : Option (List RWOp))
  deriving DecidableEq, Repr

/-- An enter or exit token logged by a unit (spec section 8). -/
inductive Token where
  | enter (id : Nat)
  | exit (id : Nat)
  deriving DecidableEq, Repr

/-- Observable state of one request in flight: the token trace and the
response wrapper. -/
structure ExecState where
  trace : List Token
  rw : RW
  deriving DecidableEq, Repr

/-- Apply one response-wrapper operation. -/
def RW.applyOp (w : RW) : RWOp → RW
  | .writeHeader c => w.writeHeader c
  | .write b => w.write b

/-- Apply a list of response-wrapper operations in order. -/
def RW.applyOps (w : RW) (ops : List RWOp) : RW := ops.foldl RW.applyOp w

/-- The `middleware` struct of `negroni.go`: a handler interface value
(`none` = nil interface) and a `*middleware` pointer (`none` = nil). -/
structure Node where
  handler : Option HandlerV
  next : Option Nat
  deriving DecidableEq, Repr

/-- The arena holding every `middleware` value whose address is taken;
indices are addresses. -/
structure Heap where
  nodes : List Node
  deriving DecidableEq, Repr

/-- The empty arena. -/
def Heap.empty : Heap := ⟨[]⟩

/-- Dereference an address. -/
def Heap.get? (σ : Heap) (a : Nat) : Option Node := σ.nodes[a]?

/-- Allocate a fresh cell holding `nd`, returning its address. -/
def Heap.alloc (σ : Heap) (nd : Node) : Heap × Nat :=
  (⟨σ.nodes ++ [nd]⟩, σ.nodes.length)

/-- The field assignment `m.handler = h` at address `a`. -/
def Heap.setHandler (σ : Heap) (a : Nat) (h : Option HandlerV) : Heap :=
  match σ.nodes[a]? with
  | none => σ
  | some nd => ⟨σ.nodes.set a { nd with handler := h }⟩

/-- The field assignment `m.next = nx` at address `a`. -/
def Heap.setNext (σ : Heap) (a : Nat) (nx : Option Nat) : Heap :=
  match σ.nodes[a]? with
  | none => σ
  | some nd => ⟨σ.nodes.set a { nd with next := nx }⟩

/-- `voidMiddleware()` of `negroni.go`: a middleware value holding the no-op
handler and a pointer to a freshly allocated zero `middleware{}` value. -/
def voidMiddleware (σ : Heap) : Heap × Node :=
  let p := σ.alloc ⟨none, none⟩
  (p.1, ⟨some HandlerV.noop, some p.2⟩)

/-- `isVoidMiddleware(m)` of `negroni.go`: for non-nil `m` it dereferences
`m.next` (a `none` result marks the panic when `m.next` is nil) and tests
whether that next node has both fields nil; for nil `m` it returns false. -/
def isVoidMiddleware (σ : Heap) (m : Option Nat) : Option Bool :=
  match m with
  | some a =>
    match σ.get? a with
    | none => none
    | some nd =>
      match nd.next with
      | none => none
      | some na =>
        match σ.get? na with
        | none => none
        | some nnd => some (nnd.handler.isNone && nnd.next.isNone)
  | none => some false

/-- `build(handlers)` of `negroni.go`, returning the built `middleware`
value (not yet allocated; its caller stores it) and the extended heap.  The
three branches mirror the source's cases `len == 0`, `len == 1`, `len > 1`. -/
def build : List (Option HandlerV) → Heap → Heap × Node
  | [], σ => voidMiddleware σ
  | [h], σ =>
    let p1 := voidMiddleware σ
    let p2 := p1.1.alloc p1.2
    (p2.1, ⟨h, some p2.2⟩)
  | h :: h2 :: hs, σ =>
    let p1 := build (h2 :: hs) σ
    let p2 := p1.1.alloc p1.2
    (p2.1, ⟨h, some p2.2⟩)

/-- `New(handlers...)` of `negroni.go`: builds the chain and stores the head
`middleware` value in the new `Negroni` struct; the returned address is that
of the head slot `&n.middleware`. -/
def New (hs : List (Option HandlerV)) (σ : Heap) : Heap × Nat :=
  let p := build hs σ
  p.1.alloc p.2

/-- The walk loop of `appendMiddleware`: `pre` and `curr` are the two
pointers of the source; one fuel is spent per iteration and `none` marks a
panic inside `isVoidMiddleware` or at the `curr.next` dereference. -/
def walk (σ : Heap) : Nat → Option Nat → Option Nat → Option (Option Nat × Option Nat)
  | 0, _, _ => none
  | fuel + 1, pre, curr =>
    match isVoidMiddleware σ curr with
    | none => none
    | some true => some (pre, curr)
    | some false =>
      match curr with
      | none => none
      | some a =>
        match σ.get? a with
        | none => none
        | some nd => walk σ fuel (some a) nd.next

/-- `appendMiddleware(m, h)` of `negroni.go`: walk to the void node; if the
walk stopped at `m` itself (`pre == nil`), overwrite `m` in place with the
new handler and a fresh void middleware; otherwise splice a new node holding
`h` in front of the void node found (`curr`), reusing it. -/
def appendMiddleware (σ : Heap) (fuel : Nat) (m : Nat) (h : Option HandlerV) : Option Heap :=
  match walk σ fuel none (some m) with
  | none => none
  | some pc =>
    match pc.1 with
    | none =>
      let σ1 := σ.setHandler m h
      let p1 := voidMiddleware σ1
      let p2 := p1.1.alloc p1.2
      some (p2.1.setNext m (some p2.2))
    | some p =>
      let p1 := σ.alloc ⟨h, pc.2⟩
      some (p1.1.setNext p (some p1.2))

/-- `(*Negroni).Use(handler)` of `negroni.go`. -/
def Use (σ : Heap) (fuel : Nat) (n : Nat) (h : Option HandlerV) : Option Heap :=
  appendMiddleware σ fuel n h

/-- A sequence of `Use` calls on the stack whose head slot is at `n`. -/
def useList (fuel : Nat) (n : Nat) : List (Option HandlerV) → Heap → Option Heap
  | [], σ => some σ
  | h :: hs, σ =>
    match Use σ fuel n h with
    | none => none
    | some σ1 => useList fuel n hs σ1

/-- The collection loop of `(*Negroni).Handlers()`; the heap is threaded
through unchanged since the loop only reads. -/
def handlersLoop (σ : Heap) :
    Nat → Option Nat → List (Option HandlerV) → Option (Heap × List (Option HandlerV))
  | 0, _, _ => none
  | fuel + 1, curr, acc =>
    match isVoidMiddleware σ curr with
    | none => none
    | some true => some (σ, acc)
    | some false =>
      match curr with
      | none => none
      | some a =>
        match σ.get? a with
        | none => none
        | some nd => handlersLoop σ fuel nd.next (acc ++ [nd.handler])

/-- `(*Negroni).Handlers()` of `negroni.go`: walks from the head slot
collecting each node's handler until the void node. -/
def Handlers (σ : Heap) (fuel : Nat) (n : Nat) : Option (Heap × List (Option HandlerV)) :=
  handlersLoop σ fuel (some n) []

/-- Run one handler unit given its continuation, per the unit model: log
`enter`, apply `pre`; then either return (no continuation call) or call the
continuation once, apply `post` and log `exit`.  The `noop` handler of
`voidMiddleware` does nothing and never calls its continuation. -/
def execHandler (h : HandlerV) (nxt : ExecState → Option ExecState) (s : ExecState) :
    Option ExecState :=
  match h with
  | .noop => some s
  | .unit id pre rest =>
    let s1 : ExecState := ⟨s.trace ++ [Token.enter id], s.rw.applyOps pre⟩
    match rest with
    | none => some s1
    | some post =>
      match nxt s1 with
      | none => none
      | some s2 => some ⟨s2.trace ++ [Token.exit id], s2.rw.applyOps post⟩

/-- `middleware.ServeHTTP` of `negroni.go`: invoke the node's handler with
the continuation `m.next.ServeHTTP`.  `none` marks fuel exhaustion or the
panics on a nil `next` pointer (the continuation method value dereferences
it) or a nil handler interface. -/
def serveNode (σ : Heap) : Nat → Nat → ExecState → Option ExecState
  | 0, _, _ => none
  | fuel + 1, a, s =>
    match σ.get? a with
    | none => none
    | some nd =>
      match nd.next with
      | none => none
      | some nxt =>
        match nd.handler with
        | none => none
        | some h => execHandler h (serveNode σ fuel nxt) s

/-- `(*Negroni).ServeHTTP` of `negroni.go`: wraps the sink in a fresh
response wrapper and starts the traversal at the head slot. -/
def negroniServeHTTP (σ : Heap) (fuel : Nat) (n : Nat) : Option ExecState :=
  serveNode σ fuel n ⟨[], RW.init⟩

/-- Reference interpreter for a list of handler interface values: each
handler runs with the interpretation of the rest of the list as its
continuation; a nil interface value panics. -/
def execUnits : List (Option HandlerV) → ExecState → Option ExecState
  | [], s => some s
  | none :: _, _ => none
  | some u :: us, s => execHandler u (execUnits us) s

/-- A unit that logs its tokens and always calls its continuation. -/
def passUnit (i : Nat) : Option HandlerV := some (HandlerV.unit i [] (some []))

/-- A registration sequence of pass-through logging units. -/
def onionUnits (ids : List Nat) : List (Option HandlerV) := ids.map passUnit

/-- The chain structure invariant: from address `a` the nodes spell the
handler list `us` (addresses `as`), ending at the void node `v` (holding the
no-op handler) whose `next` is the zero node `z`. -/
inductive Chain (σ : Heap) : Nat → List Nat → List (Option HandlerV) → Nat → Nat → Prop
  | nil {v z : Nat} (hv : σ.get? v = some ⟨some HandlerV.noop, some z⟩)
      (hz : σ.get? z = some ⟨none, none⟩) : Chain σ v [] [] v z
  | cons {a b v z : Nat} {h : Option HandlerV} {as : List Nat} {us : List (Option HandlerV)}
      (ha : σ.get? a = some ⟨h, some b⟩) (hc : Chain σ b as us v z) :
      Chain σ a (a :: as) (h :: us) v z

/-- The result of the walk's `pre` pointer: the last address of `as`, or the
initial value when `as` is empty. -/
def lastOr (p : Option Nat) (as : List Nat) : Option Nat :=
  match as.getLast? with
  | none => p
  | some x => some x

/-! ### Heap lemmas -/

theorem Heap.get?_lt {σ : Heap} {a : Nat} {nd : Node} (h : σ.get? a = some nd) :
    a < σ.nodes.length :=
  (List.getElem?_eq_some.mp h).1

theorem Heap.get?_alloc_lt {σ : Heap} (nd : Node) {a : Nat} (h : a < σ.nodes.length) :
    (σ.alloc nd).1.get? a = σ.get? a := by
  simp only [Heap.alloc, Heap.get?]
  rw [List.getElem?_append]
  simp [h]

theorem Heap.get?_alloc_self (σ : Heap) (nd : Node) :
    (σ.alloc nd).1.get? (σ.alloc nd).2 = some nd := by
  simp [Heap.alloc, Heap.get?]

theorem Heap.length_alloc (σ : Heap) (nd : Node) :
    (σ.alloc nd).1.nodes.length = σ.nodes.length + 1 := by
  simp [Heap.alloc]

theorem Heap.get?_setNext_ne {σ : Heap} {a b : Nat} (nx : Option Nat) (h : b ≠ a) :
    (σ.setNext a nx).get? b = σ.get? b := by
  unfold Heap.setNext
  cases hnd : σ.nodes[a]? with
  | none => rfl
  | some nd =>
    simp only [Heap.get?]
    exact List.getElem?_set_ne (fun he => h he.symm)

theorem Heap.get?_setNext_self {σ : Heap} {a : Nat} {nd : Node} (nx : Option Nat)
    (h : σ.get? a = some nd) : (σ.setNext a nx).get? a = some ⟨nd.handler, nx⟩ := by
  unfold Heap.setNext
  rw [show σ.nodes[a]? = some nd from h]
  simp only [Heap.get?]
  rw [List.getElem?_set_self]
  · exact Heap.get?_lt h

theorem Heap.length_setNext (σ : Heap) (a : Nat) (nx : Option Nat) :
    (σ.setNext a nx).nodes.length = σ.nodes.length := by
  unfold Heap.setNext
  cases hnd : σ.nodes[a]? with
  | none => rfl
  | some nd => simp

theorem Heap.get?_setHandler_ne {σ : Heap} {a b : Nat} (h' : Option HandlerV) (h : b ≠ a) :
    (σ.setHandler a h').get? b = σ.get? b := by
  unfold Heap.setHandler
  cases hnd : σ.nodes[a]? with
  | none => rfl
  | some nd =>
    simp only [Heap.get?]
    exact List.getElem?_set_ne (fun he => h he.symm)

theorem Heap.get?_setHandler_self {σ : Heap} {a : Nat} {nd : Node} (h' : Option HandlerV)
    (h : σ.get? a = some nd) : (σ.setHandler a h').get? a = some ⟨h', nd.next⟩ := by
  unfold Heap.setHandler
  rw [show σ.nodes[a]? = some nd from h]
  simp only [Heap.get?]
  rw [List.getElem?_set_self]
  · exact Heap.get?_lt h

theorem Heap.length_setHandler (σ : Heap) (a : Nat) (h' : Option HandlerV) :
    (σ.setHandler a h').nodes.length = σ.nodes.length := by
  unfold Heap.setHandler
  cases hnd : σ.nodes[a]? with
  | none => rfl
  | some nd => simp

/-! ### Chain structure lemmas -/

theorem Chain.length_eq {σ : Heap} {a : Nat} {as : List Nat} {us : List (Option HandlerV)}
    {v z : Nat} (hc : Chain σ a as us v z) : as.length = us.length := by
  induction hc with
  | nil _ _ => rfl
  | cons _ _ ih => simpa using ih

theorem Chain.nil_inv {σ : Heap} {b : Nat} {us : List (Option HandlerV)} {v z : Nat}
    (hc : Chain σ b [] us v z) :
    b = v ∧ us = [] ∧ σ.get? v = some ⟨some HandlerV.noop, some z⟩ ∧
      σ.get? z = some ⟨none, none⟩ := by
  cases hc with
  | nil hv hz => exact ⟨rfl, rfl, hv, hz⟩

theorem Chain.shape {σ : Heap} {a : Nat} {as : List Nat} {us : List (Option HandlerV)}
    {v z : Nat} (hc : Chain σ a as us v z) :
    ∃ oh b, σ.get? a = some ⟨oh, some b⟩ := by
  cases hc with
  | nil hv _ => exact ⟨some HandlerV.noop, _, hv⟩
  | cons ha _ => exact ⟨_, _, ha⟩

theorem Chain.mem_lt {σ : Heap} {a : Nat} {as : List Nat} {us : List (Option HandlerV)}
    {v z : Nat} (hc : Chain σ a as us v z) :
    ∀ x ∈ as ++ [v, z], x < σ.nodes.length := by
  induction hc with
  | nil hv hz =>
    intro x hx
    simp only [List.nil_append, List.mem_cons, List.not_mem_nil, or_false] at hx
    rcases hx with rfl | rfl
    · exact Heap.get?_lt hv
    · exact Heap.get?_lt hz
  | cons ha _ ih =>
    intro x hx
    simp only [List.cons_append, List.mem_cons] at hx
    rcases hx with rfl | hx
    · exact Heap.get?_lt ha
    · exact ih x hx

theorem Chain.getLast_next {σ : Heap} {a : Nat} {as : List Nat} {us : List (Option HandlerV)}
    {v z : Nat} (hc : Chain σ a as us v z) :
    ∀ {p : Nat}, as.getLast? = some p → ∃ hp, σ.get? p = some ⟨hp, some v⟩ := by
  induction hc with
  | nil _ _ => intro p hp; simp at hp
  | @cons a b v z h as us ha hcb ih =>
    intro p hp
    cases as with
    | nil =>
      simp only [List.getLast?_singleton, Option.some.injEq] at hp
      subst hp
      obtain ⟨rfl, -, -, -⟩ := hcb.nil_inv
      exact ⟨h, ha⟩
    | cons x t =>
      rw [List.getLast?_cons_cons] at hp
      exact ih hp

theorem Chain.alloc {σ : Heap} (nd : Node) {a : Nat} {as : List Nat}
    {us : List (Option HandlerV)} {v z : Nat} (hc : Chain σ a as us v z) :
    Chain (σ.alloc nd).1 a as us v z := by
  induction hc with
  | nil hv hz =>
    exact Chain.nil ((Heap.get?_alloc_lt nd (Heap.get?_lt hv)).trans hv)
      ((Heap.get?_alloc_lt nd (Heap.get?_lt hz)).trans hz)
  | cons ha _ ih =>
    exact Chain.cons ((Heap.get?_alloc_lt nd (Heap.get?_lt ha)).trans ha) ih

/-! ### Walk, serve and enumeration over a well-formed chain -/

theorem isVoid_of_chain_head {σ : Heap} {a : Nat} {as : List Nat}
    {us : List (Option HandlerV)} {v z : Nat} {h : Option HandlerV} {b : Nat}
    (ha : σ.get? a = some ⟨h, some b⟩) (hcb : Chain σ b as us v z) :
    isVoidMiddleware σ (some a) = some false := by
  obtain ⟨oh, c, hb⟩ := hcb.shape
  simp [isVoidMiddleware, ha, hb]

theorem isVoid_of_void {σ : Heap} {v z : Nat}
    (hv : σ.get? v = some ⟨some HandlerV.noop, some z⟩)
    (hz : σ.get? z = some ⟨none, none⟩) :
    isVoidMiddleware σ (some v) = some true := by
  simp [isVoidMiddleware, hv, hz]

theorem walk_of_chain {σ : Heap} {a : Nat} {as : List Nat} {us : List (Option HandlerV)}
    {v z : Nat} (hc : Chain σ a as us v z) :
    ∀ fuel p, as.length + 1 ≤ fuel → walk σ fuel p (some a) = some (lastOr p as, some v) := by
  induction hc with
  | nil hv hz =>
    intro fuel p hf
    match fuel, hf with
    | f + 1, _ =>
      rw [walk, isVoid_of_void hv hz]
      rfl
  | @cons a b v z h as us ha hcb ih =>
    intro fuel p hf
    match fuel, hf with
    | f + 1, hf =>
      rw [walk, isVoid_of_chain_head ha hcb]
      simp only [ha]
      rw [ih f (some a) (by simpa using Nat.lt_of_succ_le hf)]
      cases as with
      | nil => simp [lastOr]
      | cons x t =>
        simp only [lastOr, List.getLast?_cons_cons]
        cases hgl : (x :: t).getLast? with
        | none => simp at hgl
        | some y => rfl

theorem execHandler_congr {h : HandlerV} {f g : ExecState → Option ExecState}
    (hfg : ∀ s, f s = g s) (s : ExecState) : execHandler h f s = execHandler h g s := by
  cases h with
  | noop => rfl
  | unit id pre rest =>
    cases rest with
    | none => rfl
    | some post => simp only [execHandler, hfg]

theorem serve_of_chain {σ : Heap} {a : Nat} {as : List Nat} {us : List (Option HandlerV)}
    {v z : Nat} (hc : Chain σ a as us v z) :
    ∀ fuel, us.length + 1 ≤ fuel → ∀ s, serveNode σ fuel a s = execUnits us s := by
  induction hc with
  | nil hv hz =>
    intro fuel hf s
    match fuel, hf with
    | f + 1, _ =>
      rw [serveNode, hv]
      rfl
  | @cons a b v z h as us ha hcb ih =>
    intro fuel hf s
    match fuel, hf with
    | f + 1, hf =>
      rw [serveNode, ha]
      cases h with
      | none => rfl
      | some u =>
        exact execHandler_congr (ih f (by simpa using Nat.lt_of_succ_le hf)) s

theorem handlersLoop_of_chain {σ : Heap} {a : Nat} {as : List Nat}
    {us : List (Option HandlerV)} {v z : Nat} (hc : Chain σ a as us v z) :
    ∀ fuel acc, as.length + 1 ≤ fuel →
      handlersLoop σ fuel (some a) acc = some (σ, acc ++ us) := by
  induction hc with
  | nil hv hz =>
    intro fuel acc hf
    match fuel, hf with
    | f + 1, _ =>
      rw [handlersLoop, isVoid_of_void hv hz]
      simp
  | @cons a b v z h as us ha hcb ih =>
    intro fuel acc hf
    match fuel, hf with
    | f + 1, hf =>
      rw [handlersLoop, isVoid_of_chain_head ha hcb]
      simp only [ha]
      rw [ih f (acc ++ [h]) (by simpa using Nat.lt_of_succ_le hf)]
      simp

/-! ### Construction establishes the chain invariant -/

theorem build_cons (h : Option HandlerV) (t : List (Option HandlerV)) (σ : Heap) :
    build (h :: t) σ =
      (((build t σ).1.alloc (build t σ).2).1,
        ⟨h, some ((build t σ).1.alloc (build t σ).2).2⟩) := by
  cases t <;> rfl

theorem build_chain :
    ∀ (hs : List (Option HandlerV)) (σ : Heap),
      ∃ as v z,
        Chain ((build hs σ).1.alloc (build hs σ).2).1 ((build hs σ).1.alloc (build hs σ).2).2
          as hs v z ∧ (as ++ [v, z]).Nodup := by
  intro hs
  induction hs with
  | nil =>
    intro σ
    have h1 : (σ.alloc ⟨none, none⟩).1.get? (σ.alloc ⟨none, none⟩).2 = some ⟨none, none⟩ :=
      Heap.get?_alloc_self σ _
    refine ⟨[], ((build [] σ).1.alloc (build [] σ).2).2, (σ.alloc ⟨none, none⟩).2,
      Chain.nil ?_ ?_, ?_⟩
    · exact Heap.get?_alloc_self (voidMiddleware σ).1 (voidMiddleware σ).2
    · exact (Heap.get?_alloc_lt _ (Heap.get?_lt h1)).trans h1
    · have hlt : (σ.alloc ⟨none, none⟩).2 < ((build [] σ).1.alloc (build [] σ).2).2 :=
        Heap.get?_lt h1
      simp only [List.nil_append, List.nodup_cons, List.mem_singleton, List.not_mem_nil,
        not_false_iff, List.nodup_nil, and_true]
      omega
  | cons h t ih =>
    intro σ
    obtain ⟨as, v, z, hch, hnd⟩ := ih σ
    rw [build_cons]
    refine ⟨(((build t σ).1.alloc (build t σ).2).1.alloc
        ⟨h, some ((build t σ).1.alloc (build t σ).2).2⟩).2 :: as, v, z,
      Chain.cons (Heap.get?_alloc_self _ _) (hch.alloc _), ?_⟩
    refine List.Nodup.cons ?_ hnd
    intro hmem
    exact Nat.lt_irrefl _ (hch.mem_lt _ (by simpa using hmem))

theorem New_chain (hs : List (Option HandlerV)) (σ : Heap) :
    ∃ as v z, Chain (New hs σ).1 (New hs σ).2 as hs v z ∧ (as ++ [v, z]).Nodup :=
  build_chain hs σ

/-! ### Append preserves the chain invariant -/

theorem appendMiddleware_none {σ : Heap} {fuel m : Nat} {c : Option Nat} (h : Option HandlerV)
    (hw : walk σ fuel none (some m) = some (none, c)) :
    appendMiddleware σ fuel m h =
      some ((((σ.setHandler m h).alloc ⟨none, none⟩).1.alloc
          ⟨some HandlerV.noop, some ((σ.setHandler m h).alloc ⟨none, none⟩).2⟩).1.setNext m
        (some (((σ.setHandler m h).alloc ⟨none, none⟩).1.alloc
          ⟨some HandlerV.noop, some ((σ.setHandler m h).alloc ⟨none, none⟩).2⟩).2)) := by
  unfold appendMiddleware
  rw [hw]
  rfl

theorem appendMiddleware_some {σ : Heap} {fuel m p : Nat} {c : Option Nat} (h : Option HandlerV)
    (hw : walk σ fuel none (some m) = some (some p, c)) :
    appendMiddleware σ fuel m h =
      some ((σ.alloc ⟨h, c⟩).1.setNext p (some (σ.alloc ⟨h, c⟩).2)) := by
  unfold appendMiddleware
  rw [hw]

theorem Chain.snoc {σ : Heap} (h : Option HandlerV) {a : Nat} {as : List Nat}
    {us : List (Option HandlerV)} {v z : Nat} (hc : Chain σ a as us v z) :
    ∀ {p : Nat}, (as ++ [v, z]).Nodup → as.getLast? = some p →
      Chain ((σ.alloc ⟨h, some v⟩).1.setNext p (some (σ.alloc ⟨h, some v⟩).2)) a
        (as ++ [(σ.alloc ⟨h, some v⟩).2]) (us ++ [h]) v z := by
  induction hc with
  | nil hv hz =>
    intro p _ hp
    simp at hp
  | @cons a b v z h0 as0 us0 ha hcb ih =>
    intro p hnd hp
    cases as0 with
    | nil =>
      obtain ⟨rfl, rfl, hv, hz⟩ := hcb.nil_inv
      have hpa : a = p := by simpa using hp
      subst hpa
      have hlt_a : a < σ.nodes.length := Heap.get?_lt ha
      have ha1 : (σ.alloc ⟨h, some b⟩).1.get? a = some ⟨h0, some b⟩ :=
        (Heap.get?_alloc_lt _ hlt_a).trans ha
      have hand : a ∉ [b, z] := by
        have hnd' : (a :: [b, z]).Nodup := by simpa using hnd
        exact (List.nodup_cons.mp hnd').1
      have hba : b ≠ a := fun he => hand (by simp [he])
      have hza : z ≠ a := fun he => hand (by simp [he])
      refine Chain.cons (Heap.get?_setNext_self _ ha1) (Chain.cons ?_ (Chain.nil ?_ ?_))
      · exact (Heap.get?_setNext_ne _ (Nat.ne_of_lt hlt_a).symm).trans
          (Heap.get?_alloc_self σ _)
      · exact (Heap.get?_setNext_ne _ hba).trans
          ((Heap.get?_alloc_lt _ (Heap.get?_lt hv)).trans hv)
      · exact (Heap.get?_setNext_ne _ hza).trans
          ((Heap.get?_alloc_lt _ (Heap.get?_lt hz)).trans hz)
    | cons x t =>
      have hp' : (x :: t).getLast? = some p := by rwa [List.getLast?_cons_cons] at hp
      have hpmem : p ∈ x :: t := List.mem_of_getLast?_eq_some hp'
      have hnd0 : a ∉ (x :: t) ++ [v, z] ∧ ((x :: t) ++ [v, z]).Nodup := by
        have : (a :: ((x :: t) ++ [v, z])).Nodup := by simpa using hnd
        exact List.nodup_cons.mp this
      have hap : a ≠ p := fun he => hnd0.1 (he ▸ List.mem_append_left _ hpmem)
      have hlt_a : a < σ.nodes.length := Heap.get?_lt ha
      exact Chain.cons
        ((Heap.get?_setNext_ne _ hap).trans ((Heap.get?_alloc_lt _ hlt_a).trans ha))
        (ih hnd0.2 hp')

theorem append_chain {σ : Heap} {a : Nat} {as : List Nat} {us : List (Option HandlerV)}
    {v z : Nat} (hc : Chain σ a as us v z) (hnd : (as ++ [v, z]).Nodup)
    (h : Option HandlerV) (fuel : Nat) (hf : as.length + 1 ≤ fuel) :
    ∃ σ' as' v' z', appendMiddleware σ fuel a h = some σ' ∧
      Chain σ' a as' (us ++ [h]) v' z' ∧ (as' ++ [v', z']).Nodup := by
  have hw := walk_of_chain hc fuel none hf
  cases has : as with
  | nil =>
    subst has
    obtain ⟨rfl, rfl, hv, hz⟩ := hc.nil_inv
    have hw' : walk σ fuel none (some a) = some (none, some a) := by
      simpa [lastOr] using hw
    have hlt_a : a < σ.nodes.length := Heap.get?_lt hv
    have ha1 : (σ.setHandler a h).get? a = some ⟨h, some z⟩ :=
      Heap.get?_setHandler_self h hv
    have ha2 : ((σ.setHandler a h).alloc ⟨none, none⟩).1.get? a = some ⟨h, some z⟩ :=
      (Heap.get?_alloc_lt _ (Heap.get?_lt ha1)).trans ha1
    have hz1 : ((σ.setHandler a h).alloc ⟨none, none⟩).1.get?
        ((σ.setHandler a h).alloc ⟨none, none⟩).2 = some ⟨none, none⟩ :=
      Heap.get?_alloc_self _ _
    have ha3 : (((σ.setHandler a h).alloc ⟨none, none⟩).1.alloc
        ⟨some HandlerV.noop, some ((σ.setHandler a h).alloc ⟨none, none⟩).2⟩).1.get? a =
          some ⟨h, some z⟩ :=
      (Heap.get?_alloc_lt _ (Heap.get?_lt ha2)).trans ha2
    have hlt_az : a < ((σ.setHandler a h).alloc ⟨none, none⟩).2 := Heap.get?_lt ha1
    have hlt_zv : ((σ.setHandler a h).alloc ⟨none, none⟩).2 <
        (((σ.setHandler a h).alloc ⟨none, none⟩).1.alloc
          ⟨some HandlerV.noop, some ((σ.setHandler a h).alloc ⟨none, none⟩).2⟩).2 :=
      Heap.get?_lt hz1
    refine ⟨_, [a],
      (((σ.setHandler a h).alloc ⟨none, none⟩).1.alloc
        ⟨some HandlerV.noop, some ((σ.setHandler a h).alloc ⟨none, none⟩).2⟩).2,
      ((σ.setHandler a h).alloc ⟨none, none⟩).2,
      appendMiddleware_none h hw', Chain.cons (Heap.get?_setNext_self _ ha3)
      (Chain.nil ?_ ?_), ?_⟩
    · exact (Heap.get?_setNext_ne _ (Nat.ne_of_lt (Nat.lt_trans hlt_az hlt_zv)).symm).trans
        (Heap.get?_alloc_self _ _)
    · exact (Heap.get?_setNext_ne _ (Nat.ne_of_lt hlt_az).symm).trans
        ((Heap.get?_alloc_lt _ (Heap.get?_lt hz1)).trans hz1)
    · simp only [List.cons_append, List.nil_append, List.nodup_cons, List.mem_cons,
        List.mem_singleton, List.not_mem_nil, or_false, List.nodup_nil, and_true,
        not_or]
      exact ⟨⟨Nat.ne_of_lt (Nat.lt_trans hlt_az hlt_zv), Nat.ne_of_lt hlt_az⟩,
        (Nat.ne_of_lt hlt_zv).symm, not_false⟩
  | cons x t =>
    subst has
    cases hgl : (x :: t).getLast? with
    | none => simp at hgl
    | some p =>
      have hw' : walk σ fuel none (some a) = some (some p, some v) := by
        simpa [lastOr, hgl] using hw
      refine ⟨_, (x :: t) ++ [(σ.alloc ⟨h, some v⟩).2], v, z,
        appendMiddleware_some h hw', hc.snoc h hnd hgl, ?_⟩
      have hperm : (((x :: t) ++ [(σ.alloc ⟨h, some v⟩).2]) ++ [v, z]).Perm
          ((σ.alloc ⟨h, some v⟩).2 :: ((x :: t) ++ [v, z])) := by
        have he : ((x :: t) ++ [(σ.alloc ⟨h, some v⟩).2]) ++ [v, z] =
            (x :: t) ++ ((σ.alloc ⟨h, some v⟩).2 :: [v, z]) := by simp
        rw [he]
        exact List.perm_middle
      rw [hperm.nodup_iff]
      exact List.Nodup.cons (fun hm => Nat.lt_irrefl _ (hc.mem_lt _ hm)) hnd

theorem useList_chain :
    ∀ (hs : List (Option HandlerV)) {σ : Heap} {a : Nat} {as : List Nat}
      {us : List (Option HandlerV)} {v z : Nat},
      Chain σ a as us v z → (as ++ [v, z]).Nodup →
      ∀ fuel : Nat, us.length + hs.length + 1 ≤ fuel →
      ∃ σ' as' v' z', useList fuel a hs σ = some σ' ∧
        Chain σ' a as' (us ++ hs) v' z' ∧ (as' ++ [v', z']).Nodup := by
  intro hs
  induction hs with
  | nil =>
    intro σ a as us v z hc hnd fuel hf
    exact ⟨σ, as, v, z, rfl, by simpa using hc, hnd⟩
  | cons h t ih =>
    intro σ a as us v z hc hnd fuel hf
    have hlen : as.length = us.length := hc.length_eq
    obtain ⟨σ1, as1, v1, z1, happ, hc1, hnd1⟩ := append_chain hc hnd h fuel
      (by simp only [List.length_cons, List.length_nil] at hf; omega)
    obtain ⟨σ2, as2, v2, z2, hul, hc2, hnd2⟩ := ih hc1 hnd1 fuel
      (by simp only [List.length_cons, List.length_append, List.length_nil] at hf ⊢; omega)
    refine ⟨σ2, as2, v2, z2, ?_, by simpa using hc2, hnd2⟩
    rw [useList, Use, happ]
    exact hul

/-! ### Computation of the reference interpreter on the spec's unit shapes -/

theorem RW.applyOps_nil (w : RW) : w.applyOps [] = w := rfl

theorem execUnits_cons_eq (u : HandlerV) (us : List (Option HandlerV)) (s : ExecState) :
    execUnits (some u :: us) s = execHandler u (execUnits us) s := rfl

theorem execUnits_onion (ids : List Nat) :
    ∀ s : ExecState, execUnits (onionUnits ids) s =
      some ⟨s.trace ++ ids.map Token.enter ++ ids.reverse.map Token.exit, s.rw⟩ := by
  induction ids with
  | nil =>
    intro s
    simp [onionUnits, execUnits]
  | cons i t ih =>
    intro s
    have h0 : execUnits (onionUnits (i :: t)) s =
        execHandler (HandlerV.unit i [] (some [])) (execUnits (onionUnits t)) s := rfl
    rw [h0]
    simp only [execHandler, RW.applyOps_nil]
    rw [ih]
    simp [List.append_assoc]

theorem execUnits_stop (k : Nat) (pre : List RWOp) (rest : List (Option HandlerV)) :
    ∀ (idsF : List Nat) (s : ExecState),
      execUnits (onionUnits idsF ++ some (HandlerV.unit k pre none) :: rest) s =
        some ⟨s.trace ++ idsF.map Token.enter ++
            Token.enter k :: idsF.reverse.map Token.exit,
          s.rw.applyOps pre⟩ := by
  intro idsF
  induction idsF with
  | nil =>
    intro s
    simp [onionUnits, execUnits, execHandler]
  | cons i t ih =>
    intro s
    have h0 : execUnits (onionUnits (i :: t) ++ some (HandlerV.unit k pre none) :: rest) s =
        execHandler (HandlerV.unit i [] (some []))
          (execUnits (onionUnits t ++ some (HandlerV.unit k pre none) :: rest)) s := rfl
    rw [h0]
    simp only [execHandler, RW.applyOps_nil]
    rw [ih]
    simp [List.append_assoc]

theorem execUnits_mid (k : Nat) (ops : List RWOp) (idsB : List Nat) :
    ∀ (idsF : List Nat) (s : ExecState), ∃ tr,
      execUnits (onionUnits idsF ++ some (HandlerV.unit k ops (some [])) :: onionUnits idsB) s =
        some ⟨tr, s.rw.applyOps ops⟩ := by
  intro idsF
  induction idsF with
  | nil =>
    intro s
    have h0 : execUnits (onionUnits [] ++ some (HandlerV.unit k ops (some [])) ::
          onionUnits idsB) s =
        execHandler (HandlerV.unit k ops (some [])) (execUnits (onionUnits idsB)) s := rfl
    rw [h0]
    simp only [execHandler]
    rw [execUnits_onion]
    exact ⟨_, rfl⟩
  | cons i t ih =>
    intro s
    have h0 : execUnits (onionUnits (i :: t) ++ some (HandlerV.unit k ops (some [])) ::
          onionUnits idsB) s =
        execHandler (HandlerV.unit i [] (some []))
          (execUnits (onionUnits t ++ some (HandlerV.unit k ops (some [])) ::
            onionUnits idsB)) s := rfl
    rw [h0]
    simp only [execHandler, RW.applyOps_nil]
    obtain ⟨tr, htr⟩ := ih ⟨s.trace ++ [Token.enter i], s.rw⟩
    rw [htr]
    exact ⟨_, rfl⟩

theorem execUnits_nil_handler (rest : List (Option HandlerV)) :
    ∀ (idsF : List Nat) (s : ExecState),
      execUnits (onionUnits idsF ++ none :: rest) s = none := by
  intro idsF
  induction idsF with
  | nil => intro s; rfl
  | cons i t ih =>
    intro s
    have h0 : execUnits (onionUnits (i :: t) ++ none :: rest) s =
        execHandler (HandlerV.unit i [] (some []))
          (execUnits (onionUnits t ++ none :: rest)) s := rfl
    rw [h0]
    simp only [execHandler, RW.applyOps_nil]
    rw [ih]

/-! ### Reachable stacks -/

theorem onionUnits_length (ids : List Nat) : (onionUnits ids).length = ids.length := by
  simp [onionUnits]

theorem reach_chain (σ0 : Heap) (us0 hs : List (Option HandlerV)) (fuel : Nat)
    (hf : us0.length + hs.length + 1 ≤ fuel) :
    ∃ σ' as v z, useList fuel (New us0 σ0).2 hs (New us0 σ0).1 = some σ' ∧
      Chain σ' (New us0 σ0).2 as (us0 ++ hs) v z ∧ (as ++ [v, z]).Nodup := by
  obtain ⟨as, v, z, hch, hnd⟩ := New_chain us0 σ0
  obtain ⟨σ', as', v', z', hul, hc', hnd'⟩ := useList_chain hs hch hnd fuel hf
  exact ⟨σ', as', v', z', hul, hc', hnd'⟩

theorem handlersLoop_heap_id (σ : Heap) :
    ∀ (fuel : Nat) (c : Option Nat) (acc : List (Option HandlerV))
      (r : Heap × List (Option HandlerV)), handlersLoop σ fuel c acc = some r → r.1 = σ := by
  intro fuel
  induction fuel with
  | zero => intro c acc r h; exact Option.noConfusion h
  | succ f ih =>
    intro c acc r
    rcases c with _ | a
    · intro h
      exact Option.noConfusion h
    · rw [handlersLoop]
      intro h
      split at h
      · exact Option.noConfusion h
      · obtain rfl : (σ, acc) = r := Option.some.inj h
        rfl
      · split at h
        · exact Option.noConfusion h
        · exact ih _ _ r h

/-! ### Claim theorems -/

/-- C1: for a stack with units U1..Un registered via Use, each logging an
enter token, calling its continuation and logging an exit token, one serve
call produces the tokens enter(U1)..enter(Un) exit(Un)..exit(U1): the
downward pass runs in registration order, the upward pass in reverse
registration order (onion order). -/
theorem c1_onion_order (σ0 : Heap) (ids : List Nat) (fuel : Nat)
    (hf : ids.length + 2 ≤ fuel) :
    ∃ σ', useList fuel (New [] σ0).2 (onionUnits ids) (New [] σ0).1 = some σ' ∧
      negroniServeHTTP σ' fuel (New [] σ0).2 =
        some ⟨ids.map Token.enter ++ ids.reverse.map Token.exit, RW.init⟩ := by
  have hr : ([] : List (Option HandlerV)).length + (onionUnits ids).length + 1 ≤ fuel := by
    simp only [List.length_nil, onionUnits_length]
    omega
  obtain ⟨σ', as, v, z, hul, hc, hnd⟩ := reach_chain σ0 [] (onionUnits ids) fuel hr
  refine ⟨σ', hul, ?_⟩
  have hs1 : (onionUnits ids).length + 1 ≤ fuel := by
    simp only [onionUnits_length]
    omega
  rw [negroniServeHTTP, serve_of_chain hc fuel hs1]
  rw [show ([] : List (Option HandlerV)) ++ onionUnits ids = onionUnits ids from rfl]
  rw [execUnits_onion]
  rfl

/-- C1 witness at a concrete input. -/
theorem c1_onion_order_witness :
    ∃ σ', useList 4 (New [] Heap.empty).2 (onionUnits [1, 2]) (New [] Heap.empty).1 =
        some σ' ∧
      negroniServeHTTP σ' 4 (New [] Heap.empty).2 =
        some ⟨[1, 2].map Token.enter ++ [1, 2].reverse.map Token.exit, RW.init⟩ :=
  c1_onion_order Heap.empty [1, 2] 4 (by decide)

/-- C2: the void node's no-op handler returns without calling its
continuation, and if unit Uk registers no continuation call then serving
logs enter(U1)..enter(Uk) followed only by the upward-pass exits of
U1..Uk-1: no unit after Uk runs, no post-continuation code of Uk or any
later unit runs, and the wrapper state is whatever Uk's operations set. -/
theorem c2_short_circuit :
    (∀ (f : ExecState → Option ExecState) (s : ExecState),
      execHandler HandlerV.noop f s = some s) ∧
    ∀ (σ0 : Heap) (idsF : List Nat) (k : Nat) (pre : List RWOp) (idsB : List Nat)
      (fuel : Nat), idsF.length + idsB.length + 2 ≤ fuel →
      ∃ σ', useList fuel (New [] σ0).2
          (onionUnits idsF ++ some (HandlerV.unit k pre none) :: onionUnits idsB)
          (New [] σ0).1 = some σ' ∧
        negroniServeHTTP σ' fuel (New [] σ0).2 =
          some ⟨idsF.map Token.enter ++ Token.enter k :: idsF.reverse.map Token.exit,
            RW.init.applyOps pre⟩ := by
  refine ⟨fun f s => rfl, ?_⟩
  intro σ0 idsF k pre idsB fuel hf
  have hr : ([] : List (Option HandlerV)).length +
      (onionUnits idsF ++ some (HandlerV.unit k pre none) :: onionUnits idsB).length + 1 ≤
        fuel := by
    simp only [List.length_nil, List.length_append, List.length_cons, onionUnits_length]
    omega
  obtain ⟨σ', as, v, z, hul, hc, hnd⟩ := reach_chain σ0 []
    (onionUnits idsF ++ some (HandlerV.unit k pre none) :: onionUnits idsB) fuel hr
  refine ⟨σ', hul, ?_⟩
  have hs1 : (onionUnits idsF ++ some (HandlerV.unit k pre none) ::
      onionUnits idsB).length + 1 ≤ fuel := by
    simp only [List.length_append, List.length_cons, onionUnits_length]
    omega
  rw [negroniServeHTTP, serve_of_chain hc fuel hs1]
  rw [show ([] : List (Option HandlerV)) ++
    (onionUnits idsF ++ some (HandlerV.unit k pre none) :: onionUnits idsB) =
    onionUnits idsF ++ some (HandlerV.unit k pre none) :: onionUnits idsB from rfl]
  rw [execUnits_stop]
  rfl

/-- C2 witness at a concrete input. -/
theorem c2_short_circuit_witness :
    ∃ σ', useList 5 (New [] Heap.empty).2
        (onionUnits [1] ++ some (HandlerV.unit 7 [RWOp.writeHeader 400] none) ::
          onionUnits [3]) (New [] Heap.empty).1 = some σ' ∧
      negroniServeHTTP σ' 5 (New [] Heap.empty).2 =
        some ⟨[1].map Token.enter ++ Token.enter 7 :: [1].reverse.map Token.exit,
          RW.init.applyOps [RWOp.writeHeader 400]⟩ :=
  c2_short_circuit.2 Heap.empty [1] 7 [RWOp.writeHeader 400] [3] 5 (by decide)

/-- C3: building a stack from a unit sequence and then appending one more
unit with appendMiddleware yields a chain whose request-time behaviour (the
whole serve traversal, for every starting state) is identical to the chain
built directly from the extended sequence, whatever heaps the two stacks
live in; the [A,B] plus C case is the instance us = [A, B]. -/
theorem c3_append_equals_build (σ0 σ1 : Heap) (us : List (Option HandlerV))
    (h : Option HandlerV) (fuel fuel' : Nat) (hf : us.length + 1 ≤ fuel)
    (hf' : us.length + 2 ≤ fuel') :
    ∃ σ2, appendMiddleware (New us σ0).1 fuel (New us σ0).2 h = some σ2 ∧
      ∀ s, serveNode σ2 fuel' (New us σ0).2 s =
        serveNode (New (us ++ [h]) σ1).1 fuel' (New (us ++ [h]) σ1).2 s := by
  obtain ⟨as, v, z, hc, hnd⟩ := New_chain us σ0
  have hlen := hc.length_eq
  obtain ⟨σ2, as2, v2, z2, happ, hc2, hnd2⟩ := append_chain hc hnd h fuel (by omega)
  obtain ⟨as3, v3, z3, hc3, hnd3⟩ := New_chain (us ++ [h]) σ1
  refine ⟨σ2, happ, fun s => ?_⟩
  have hs1 : (us ++ [h]).length + 1 ≤ fuel' := by
    simp only [List.length_append, List.length_cons, List.length_nil]
    omega
  rw [serve_of_chain hc2 fuel' hs1, serve_of_chain hc3 fuel' hs1]

/-- C3 witness at a concrete input. -/
theorem c3_append_equals_build_witness :
    ∃ σ2, appendMiddleware (New [passUnit 1, passUnit 2] Heap.empty).1 3
        (New [passUnit 1, passUnit 2] Heap.empty).2 (passUnit 3) = some σ2 ∧
      ∀ s, serveNode σ2 4 (New [passUnit 1, passUnit 2] Heap.empty).2 s =
        serveNode (New ([passUnit 1, passUnit 2] ++ [passUnit 3]) Heap.empty).1 4
          (New ([passUnit 1, passUnit 2] ++ [passUnit 3]) Heap.empty).2 s :=
  c3_append_equals_build Heap.empty Heap.empty [passUnit 1, passUnit 2] (passUnit 3)
    3 4 (by decide) (by decide)

/-- C5: New with any unit sequence followed by any sequence of Use calls
succeeds and preserves the chain invariant: from the head slot the nodes
spell exactly the registered units in registration order and end in exactly
one terminal void node (followed by its zero sentinel), all node addresses
distinct. -/
theorem c5_invariant_preserved (σ0 : Heap) (us0 hs : List (Option HandlerV)) (fuel : Nat)
    (hf : us0.length + hs.length + 1 ≤ fuel) :
    ∃ σ' as v z, useList fuel (New us0 σ0).2 hs (New us0 σ0).1 = some σ' ∧
      Chain σ' (New us0 σ0).2 as (us0 ++ hs) v z ∧ (as ++ [v, z]).Nodup :=
  reach_chain σ0 us0 hs fuel hf

/-- C5 witness at a concrete input. -/
theorem c5_invariant_preserved_witness :
    ∃ σ' as v z, useList 4 (New [passUnit 1] Heap.empty).2 [passUnit 2, none]
        (New [passUnit 1] Heap.empty).1 = some σ' ∧
      Chain σ' (New [passUnit 1] Heap.empty).2 as ([passUnit 1] ++ [passUnit 2, none]) v z ∧
      (as ++ [v, z]).Nodup :=
  c5_invariant_preserved Heap.empty [passUnit 1] [passUnit 2, none] 4 (by decide)

/-- C6: on a freshly constructed stack the enumeration returns the empty
sequence, and after any sequence of Use registrations made before any serve
call, Handlers walks from the head up to but excluding the terminal node
and returns exactly the registered units in registration order, hence with
length equal to the number of Use calls. -/
theorem c6_handlers_enumeration (σ0 : Heap) (hs : List (Option HandlerV)) (fuel : Nat)
    (hf : hs.length + 2 ≤ fuel) :
    Handlers (New [] σ0).1 fuel (New [] σ0).2 = some ((New [] σ0).1, []) ∧
    ∃ σ', useList fuel (New [] σ0).2 hs (New [] σ0).1 = some σ' ∧
      Handlers σ' fuel (New [] σ0).2 = some (σ', hs) := by
  constructor
  · obtain ⟨as, v, z, hc, hnd⟩ := New_chain [] σ0
    have h0 : as.length + 1 ≤ fuel := by
      have hl := hc.length_eq
      simp only [List.length_nil] at hl
      omega
    have hres := handlersLoop_of_chain hc fuel [] h0
    simpa [Handlers] using hres
  · have hr : ([] : List (Option HandlerV)).length + hs.length + 1 ≤ fuel := by
      simp only [List.length_nil]
      omega
    obtain ⟨σ', as, v, z, hul, hc, hnd⟩ := reach_chain σ0 [] hs fuel hr
    refine ⟨σ', hul, ?_⟩
    have hlen : as.length + 1 ≤ fuel := by
      have hl := hc.length_eq
      simp only [List.nil_append] at hl
      omega
    have hres := handlersLoop_of_chain hc fuel [] hlen
    simpa [Handlers] using hres

/-- C6 witness at a concrete input. -/
theorem c6_handlers_enumeration_witness :
    Handlers (New [] Heap.empty).1 4 (New [] Heap.empty).2 =
      some ((New [] Heap.empty).1, []) ∧
    ∃ σ', useList 4 (New [] Heap.empty).2 [passUnit 1, none] (New [] Heap.empty).1 =
        some σ' ∧
      Handlers σ' 4 (New [] Heap.empty).2 = some (σ', [passUnit 1, none]) :=
  c6_handlers_enumeration Heap.empty [passUnit 1, none] 4 (by decide)

/-- C7: on the spec-modelled response wrapper, a body write with no status
set yet implicitly records status 200, accumulates the byte count and
forwards the bytes unchanged; and when the only unit touching the response
writes status 400 and then a 5-byte body, serve observes status 400 and
size 5 no matter how many pass-through units run before or after it. -/
theorem c7_response_wrapper :
    (∀ (w : RW) (b : Bytes), w.status = none →
      (w.write b).status = some 200 ∧ (w.write b).size = w.size + b.length ∧
        (w.write b).sink = w.sink ++ b) ∧
    ∀ (σ0 : Heap) (idsF idsB : List Nat) (k : Nat) (b : Bytes) (fuel : Nat),
      b.length = 5 → idsF.length + idsB.length + 2 ≤ fuel →
      ∃ σ' s, useList fuel (New [] σ0).2
          (onionUnits idsF ++
            some (HandlerV.unit k [RWOp.writeHeader 400, RWOp.write b] (some [])) ::
              onionUnits idsB) (New [] σ0).1 = some σ' ∧
        negroniServeHTTP σ' fuel (New [] σ0).2 = some s ∧
        s.rw.status = some 400 ∧ s.rw.size = 5 := by
  constructor
  · intro w b hw
    refine ⟨?_, ?_, ?_⟩ <;> simp [RW.write, RW.writeHeader, hw]
  · intro σ0 idsF idsB k b fuel hb hf
    have hr : ([] : List (Option HandlerV)).length +
        (onionUnits idsF ++
          some (HandlerV.unit k [RWOp.writeHeader 400, RWOp.write b] (some [])) ::
            onionUnits idsB).length + 1 ≤ fuel := by
      simp only [List.length_nil, List.length_append, List.length_cons, onionUnits_length]
      omega
    obtain ⟨σ', as, v, z, hul, hc, hnd⟩ := reach_chain σ0 []
      (onionUnits idsF ++
        some (HandlerV.unit k [RWOp.writeHeader 400, RWOp.write b] (some [])) ::
          onionUnits idsB) fuel hr
    have hs1 : (onionUnits idsF ++
        some (HandlerV.unit k [RWOp.writeHeader 400, RWOp.write b] (some [])) ::
          onionUnits idsB).length + 1 ≤ fuel := by
      simp only [List.length_append, List.length_cons, onionUnits_length]
      omega
    obtain ⟨tr, htr⟩ := execUnits_mid k [RWOp.writeHeader 400, RWOp.write b] idsB idsF
      ⟨[], RW.init⟩
    refine ⟨σ', ⟨tr, RW.init.applyOps [RWOp.writeHeader 400, RWOp.write b]⟩, hul, ?_, ?_, ?_⟩
    · rw [negroniServeHTTP, serve_of_chain hc fuel hs1]
      exact htr
    · simp [RW.applyOps, RW.applyOp, RW.writeHeader, RW.write, RW.init]
    · simp [RW.applyOps, RW.applyOp, RW.writeHeader, RW.write, RW.init, hb]

/-- C7 witness at a concrete input. -/
theorem c7_response_wrapper_witness :
    ((RW.init.write [1, 2, 3]).status = some 200 ∧
      (RW.init.write [1, 2, 3]).size = RW.init.size + [1, 2, 3].length ∧
      (RW.init.write [1, 2, 3]).sink = RW.init.sink ++ [1, 2, 3]) ∧
    ∃ σ' s, useList 5 (New [] Heap.empty).2
        (onionUnits [1] ++
          some (HandlerV.unit 2 [RWOp.writeHeader 400, RWOp.write [9, 9, 9, 9, 9]]
            (some [])) :: onionUnits [3]) (New [] Heap.empty).1 = some σ' ∧
      negroniServeHTTP σ' 5 (New [] Heap.empty).2 = some s ∧
      s.rw.status = some 400 ∧ s.rw.size = 5 :=
  ⟨c7_response_wrapper.1 RW.init [1, 2, 3] (by decide),
    c7_response_wrapper.2 Heap.empty [1] [3] 2 [9, 9, 9, 9, 9] 5 (by decide) (by decide)⟩

/-- C8: registration never raises and performs no validation: on every
well-formed chain appendMiddleware succeeds for every handler interface
value, including the nil interface `none`; nil units only fail later, at
invocation time, when serve panics (result `none`), surfaced rather than
caught by the core. -/
theorem c8_registration_no_validation :
    (∀ (σ : Heap) (a : Nat) (as : List Nat) (us : List (Option HandlerV)) (v z : Nat)
      (u : Option HandlerV) (fuel : Nat), Chain σ a as us v z → (as ++ [v, z]).Nodup →
      as.length + 1 ≤ fuel → ∃ σ', appendMiddleware σ fuel a u = some σ') ∧
    ∀ (σ0 : Heap) (idsF : List Nat) (rest : List (Option HandlerV)) (fuel : Nat),
      idsF.length + rest.length + 2 ≤ fuel →
      ∃ σ', useList fuel (New [] σ0).2 (onionUnits idsF ++ none :: rest) (New [] σ0).1 =
          some σ' ∧
        negroniServeHTTP σ' fuel (New [] σ0).2 = none := by
  constructor
  · intro σ a as us v z u fuel hc hnd hf
    obtain ⟨σ', as', v', z', happ, -, -⟩ := append_chain hc hnd u fuel hf
    exact ⟨σ', happ⟩
  · intro σ0 idsF rest fuel hf
    have hr : ([] : List (Option HandlerV)).length +
        (onionUnits idsF ++ none :: rest).length + 1 ≤ fuel := by
      simp only [List.length_nil, List.length_append, List.length_cons, onionUnits_length]
      omega
    obtain ⟨σ', as, v, z, hul, hc, hnd⟩ := reach_chain σ0 []
      (onionUnits idsF ++ none :: rest) fuel hr
    refine ⟨σ', hul, ?_⟩
    have hs1 : (onionUnits idsF ++ none :: rest).length + 1 ≤ fuel := by
      simp only [List.length_append, List.length_cons, onionUnits_length]
      omega
    rw [negroniServeHTTP, serve_of_chain hc fuel hs1]
    exact execUnits_nil_handler rest idsF ⟨[], RW.init⟩

/-- C8 witness at a concrete input. -/
theorem c8_registration_no_validation_witness :
    (∃ σ', appendMiddleware (New [] Heap.empty).1 2 (New [] Heap.empty).2 none = some σ') ∧
    ∃ σ', useList 4 (New [] Heap.empty).2 (onionUnits [1] ++ none :: [passUnit 3])
        (New [] Heap.empty).1 = some σ' ∧
      negroniServeHTTP σ' 4 (New [] Heap.empty).2 = none :=
  ⟨c8_registration_no_validation.1 (New [] Heap.empty).1 (New [] Heap.empty).2 [] [] 1 0
      none 2 (Chain.nil (by decide) (by decide)) (by decide) (by decide),
    c8_registration_no_validation.2 Heap.empty [1] [passUnit 3] 4 (by decide)⟩

/-- C9: Handlers is read-only and its result is a fresh value: any
successful enumeration returns the heap it was given unchanged — every
node's handler and next field is untouched — so an immediately repeated
call returns the very same sequence; the returned list is a value
independent of the chain cells. -/
theorem c9_handlers_readonly (σ : Heap) (fuel n : Nat) (σ1 : Heap)
    (l : List (Option HandlerV)) (h : Handlers σ fuel n = some (σ1, l)) :
    σ1 = σ ∧ Handlers σ1 fuel n = some (σ1, l) := by
  have h1 : σ1 = σ := handlersLoop_heap_id σ fuel (some n) [] (σ1, l) h
  subst h1
  exact ⟨rfl, h⟩

/-- C9 witness at a concrete input. -/
theorem c9_handlers_readonly_witness :
    (New [] Heap.empty).1 = (New [] Heap.empty).1 ∧
    Handlers (New [] Heap.empty).1 2 (New [] Heap.empty).2 =
      some ((New [] Heap.empty).1, []) :=
  c9_handlers_readonly (New [] Heap.empty).1 2 (New [] Heap.empty).2
    (New [] Heap.empty).1 [] (by decide)

/-- C10: isVoidMiddleware returns false on a nil pointer without any
dereference, and on every stack reachable by New followed by any sequence
of Use calls both pointer walks — the append walk and the Handlers
enumeration walk — terminate successfully (no nil next pointer is ever
dereferenced, which in this model would yield `none`). -/
theorem c10_walks_safe :
    (∀ σ : Heap, isVoidMiddleware σ none = some false) ∧
    ∀ (σ0 : Heap) (us0 hs : List (Option HandlerV)) (fuel : Nat),
      us0.length + hs.length + 2 ≤ fuel →
      ∃ σ' pr l, useList fuel (New us0 σ0).2 hs (New us0 σ0).1 = some σ' ∧
        walk σ' fuel none (some (New us0 σ0).2) = some pr ∧
        Handlers σ' fuel (New us0 σ0).2 = some (σ', l) := by
  refine ⟨fun σ => rfl, ?_⟩
  intro σ0 us0 hs fuel hf
  obtain ⟨σ', as, v, z, hul, hc, hnd⟩ := reach_chain σ0 us0 hs fuel (by omega)
  have hlen : as.length + 1 ≤ fuel := by
    have hl := hc.length_eq
    have h2 : (us0 ++ hs).length = us0.length + hs.length := List.length_append _ _
    omega
  refine ⟨σ', (lastOr none as, some v), us0 ++ hs, hul,
    walk_of_chain hc fuel none hlen, ?_⟩
  have hres := handlersLoop_of_chain hc fuel [] hlen
  simpa [Handlers] using hres

/-- C10 witness at a concrete input. -/
theorem c10_walks_safe_witness :
    (∀ σ : Heap, isVoidMiddleware σ none = some false) ∧
    ∃ σ' pr l, useList 5 (New [passUnit 1] Heap.empty).2 [passUnit 2]
        (New [passUnit 1] Heap.empty).1 = some σ' ∧
      walk σ' 5 none (some (New [passUnit 1] Heap.empty).2) = some pr ∧
      Handlers σ' 5 (New [passUnit 1] Heap.empty).2 = some (σ', l) :=
  ⟨c10_walks_safe.1, c10_walks_safe.2 Heap.empty [passUnit 1] [passUnit 2] 5 (by decide)⟩

theorem Chain.ends {σ : Heap} {a : Nat} {as : List Nat} {us : List (Option HandlerV)}
    {v z : Nat} (hc : Chain σ a as us v z) :
    σ.get? v = some ⟨some HandlerV.noop, some z⟩ ∧ σ.get? z = some ⟨none, none⟩ := by
  induction hc with
  | nil hv hz => exact ⟨hv, hz⟩
  | cons _ _ ih => exact ih

/-- C4 is refuted on the freshly built empty stack: the append walk stops
at the head immediately, yet that node is not shaped "handler absent and
next absent" — it holds the no-op handler and a non-nil next pointer
(detection in the code inspects the shape of the NEXT node, and
head.handler is the no-op handler, not unset). -/
theorem c4_walk_detection_counterexample :
    walk (New [] Heap.empty).1 5 none (some (New [] Heap.empty).2) =
      some (none, some (New [] Heap.empty).2) ∧
    (New [] Heap.empty).1.get? (New [] Heap.empty).2 =
      some ⟨some HandlerV.noop, some 0⟩ ∧
    ¬((New [] Heap.empty).1.get? (New [] Heap.empty).2 = some ⟨none, none⟩) := by
  decide

/-- C4 (amended): the append walk stops at the first node whose NEXT node
has handler and next both absent — that stopping node is the terminal
no-op node v (its own handler is the no-op handler, present, also when it
is the head of an empty chain).  If the walk stops at the head itself
(empty chain, pre nil), the head is mutated in place to hold the new unit
with next pointing at a freshly created terminal (two fresh cells: a new
zero sentinel and a new no-op node); otherwise the predecessor's next is
redirected to a single newly allocated node holding the unit whose next is
the terminal v found during the walk — the existing terminal is reused
unchanged and exactly one cell is allocated. -/
theorem c4_append_algorithm (σ : Heap) (a : Nat) (as : List Nat)
    (us : List (Option HandlerV)) (v z : Nat) (u : Option HandlerV) (fuel : Nat)
    (hc : Chain σ a as us v z) (hnd : (as ++ [v, z]).Nodup) (hf : as.length + 1 ≤ fuel) :
    walk σ fuel none (some a) = some (lastOr none as, some v) ∧
    σ.get? v = some ⟨some HandlerV.noop, some z⟩ ∧
    σ.get? z = some ⟨none, none⟩ ∧
    (us = [] → a = v ∧ ∃ σ',
      appendMiddleware σ fuel a u = some σ' ∧
      σ'.get? a = some ⟨u, some (σ.nodes.length + 1)⟩ ∧
      σ'.get? (σ.nodes.length + 1) = some ⟨some HandlerV.noop, some σ.nodes.length⟩ ∧
      σ'.get? σ.nodes.length = some ⟨none, none⟩ ∧
      σ'.nodes.length = σ.nodes.length + 2) ∧
    (us ≠ [] → ∃ p ph σ', as.getLast? = some p ∧
      appendMiddleware σ fuel a u = some σ' ∧
      σ.get? p = some ⟨ph, some v⟩ ∧
      σ'.get? p = some ⟨ph, some σ.nodes.length⟩ ∧
      σ'.get? σ.nodes.length = some ⟨u, some v⟩ ∧
      σ'.get? v = σ.get? v ∧
      σ'.nodes.length = σ.nodes.length + 1) := by
  refine ⟨walk_of_chain hc fuel none hf, hc.ends.1, hc.ends.2, ?_, ?_⟩
  · intro hus
    subst hus
    have has : as = [] := List.eq_nil_of_length_eq_zero (by simpa using hc.length_eq)
    subst has
    obtain ⟨hav, -, hv, hz⟩ := hc.nil_inv
    refine ⟨hav, ?_⟩
    subst hav
    have hw' : walk σ fuel none (some a) = some (none, some a) := by
      simpa [lastOr] using walk_of_chain hc fuel none hf
    have ha1 : (σ.setHandler a u).get? a = some ⟨u, some z⟩ :=
      Heap.get?_setHandler_self u hv
    have ha2 : ((σ.setHandler a u).alloc ⟨none, none⟩).1.get? a = some ⟨u, some z⟩ :=
      (Heap.get?_alloc_lt _ (Heap.get?_lt ha1)).trans ha1
    have hz1 : ((σ.setHandler a u).alloc ⟨none, none⟩).1.get?
        ((σ.setHandler a u).alloc ⟨none, none⟩).2 = some ⟨none, none⟩ :=
      Heap.get?_alloc_self _ _
    have ha3 : (((σ.setHandler a u).alloc ⟨none, none⟩).1.alloc
        ⟨some HandlerV.noop, some ((σ.setHandler a u).alloc ⟨none, none⟩).2⟩).1.get? a =
          some ⟨u, some z⟩ :=
      (Heap.get?_alloc_lt _ (Heap.get?_lt ha2)).trans ha2
    have hlt_az : a < ((σ.setHandler a u).alloc ⟨none, none⟩).2 := Heap.get?_lt ha1
    have hlt_zv : ((σ.setHandler a u).alloc ⟨none, none⟩).2 <
        (((σ.setHandler a u).alloc ⟨none, none⟩).1.alloc
          ⟨some HandlerV.noop, some ((σ.setHandler a u).alloc ⟨none, none⟩).2⟩).2 :=
      Heap.get?_lt hz1
    have e1 : ((σ.setHandler a u).alloc ⟨none, none⟩).2 = σ.nodes.length :=
      Heap.length_setHandler σ a u
    have e2 : (((σ.setHandler a u).alloc ⟨none, none⟩).1.alloc
        ⟨some HandlerV.noop, some ((σ.setHandler a u).alloc ⟨none, none⟩).2⟩).2 =
          σ.nodes.length + 1 := by
      show ((σ.setHandler a u).alloc ⟨none, none⟩).1.nodes.length = σ.nodes.length + 1
      rw [Heap.length_alloc, Heap.length_setHandler]
    refine ⟨_, appendMiddleware_none u hw', ?_, ?_, ?_, ?_⟩
    · rw [← e2]
      exact Heap.get?_setNext_self _ ha3
    · rw [← e2, ← e1]
      exact (Heap.get?_setNext_ne _ (Nat.ne_of_lt (Nat.lt_trans hlt_az hlt_zv)).symm).trans
        (Heap.get?_alloc_self _ _)
    · rw [← e1]
      exact (Heap.get?_setNext_ne _ (Nat.ne_of_lt hlt_az).symm).trans
        ((Heap.get?_alloc_lt _ (Heap.get?_lt hz1)).trans hz1)
    · rw [Heap.length_setNext, Heap.length_alloc, Heap.length_alloc, Heap.length_setHandler]
  · intro hus
    rcases hgl : as.getLast? with _ | p
    · exfalso
      have has : as = [] := List.getLast?_eq_none_iff.mp hgl
      exact hus (List.eq_nil_of_length_eq_zero (by rw [← hc.length_eq, has]; rfl))
    · obtain ⟨ph, hp⟩ := hc.getLast_next hgl
      have hpmem : p ∈ as := List.mem_of_getLast?_eq_some hgl
      have hplt : p < σ.nodes.length := Heap.get?_lt hp
      have hw' : walk σ fuel none (some a) = some (some p, some v) := by
        simpa [lastOr, hgl] using walk_of_chain hc fuel none hf
      have hvlt : v < σ.nodes.length := Heap.get?_lt hc.ends.1
      have hdisj : as.Disjoint [v, z] := List.disjoint_of_nodup_append hnd
      have hvp : v ≠ p := fun he => hdisj hpmem (by simp [he])
      refine ⟨p, ph, _, rfl, appendMiddleware_some u hw', hp, ?_, ?_, ?_, ?_⟩
      · exact Heap.get?_setNext_self _ ((Heap.get?_alloc_lt _ hplt).trans hp)
      · exact (Heap.get?_setNext_ne _ (Nat.ne_of_lt hplt).symm).trans
          (Heap.get?_alloc_self _ _)
      · exact (Heap.get?_setNext_ne _ hvp).trans (Heap.get?_alloc_lt _ hvlt)
      · rw [Heap.length_setNext, Heap.length_alloc]

/-- C4 witness at a concrete input. -/
theorem c4_append_algorithm_witness :
    walk (New [passUnit 1] Heap.empty).1 9 none (some 2) = some (lastOr none [2], some 1) ∧
    (New [passUnit 1] Heap.empty).1.get? 1 = some ⟨some HandlerV.noop, some 0⟩ ∧
    (New [passUnit 1] Heap.empty).1.get? 0 = some ⟨none, none⟩ ∧
    ([passUnit 1] = [] → 2 = 1 ∧ ∃ σ',
      appendMiddleware (New [passUnit 1] Heap.empty).1 9 2 (passUnit 9) = some σ' ∧
      σ'.get? 2 =
        some ⟨passUnit 9, some ((New [passUnit 1] Heap.empty).1.nodes.length + 1)⟩ ∧
      σ'.get? ((New [passUnit 1] Heap.empty).1.nodes.length + 1) =
        some ⟨some HandlerV.noop, some (New [passUnit 1] Heap.empty).1.nodes.length⟩ ∧
      σ'.get? (New [passUnit 1] Heap.empty).1.nodes.length = some ⟨none, none⟩ ∧
      σ'.nodes.length = (New [passUnit 1] Heap.empty).1.nodes.length + 2) ∧
    ([passUnit 1] ≠ [] → ∃ p ph σ', [2].getLast? = some p ∧
      appendMiddleware (New [passUnit 1] Heap.empty).1 9 2 (passUnit 9) = some σ' ∧
      (New [passUnit 1] Heap.empty).1.get? p = some ⟨ph, some 1⟩ ∧
      σ'.get? p = some ⟨ph, some (New [passUnit 1] Heap.empty).1.nodes.length⟩ ∧
      σ'.get? (New [passUnit 1] Heap.empty).1.nodes.length = some ⟨passUnit 9, some 1⟩ ∧
      σ'.get? 1 = (New [passUnit 1] Heap.empty).1.get? 1 ∧
      σ'.nodes.length = (New [passUnit 1] Heap.empty).1.nodes.length + 1) :=
  c4_append_algorithm (New [passUnit 1] Heap.empty).1 2 [2] [passUnit 1] 1 0 (passUnit 9) 9
    (Chain.cons (by decide) (Chain.nil (by decide) (by decide))) (by decide) (by decide)

end NegroniModel
